import Mathlib

/-!
Verification development for the day-19 grammar recognizer of
`advent_of_code_2020` (`src/d19.rs`).

The embedding translates the Rust source into Lean:

* `Rule` / `RulesMap` embed `enum Rule` and the `HashMap<RuleId, Rule>`.
  The map is an association list whose `lookupRule` returns the most
  recently inserted binding, matching `HashMap` lookups after inserts.
* Messages are `List Char`.  The claims under study restrict attention to
  single-byte characters, for which Rust's byte positions (`m.len()`,
  `&m[1..]`) and char positions (`m.chars().nth(i)`) coincide, so a single
  `Nat` position / `List Char` suffix model is faithful.
* Recursive functions of the source can diverge on left-recursive
  grammars and panic on missing rule ids, so each is embedded with a fuel
  parameter and an `Option` result: `none` models "no result" (panic or
  exhausted fuel), `some` is the value the Rust code returns.  Fuel is
  consumed once per rule evaluation (one unit each time
  `is_message_valid_using_list_of_suffixes` respectively
  `is_message_valid_using_recursive_descent` is entered).  All recursion
  is structural on the fuel so every definition evaluates in the kernel.
* The Rust recursive-descent functions additionally thread two vectors
  `rules_applied` / `rules_left`.  They are debugging bookkeeping: they
  are only pushed, popped and length-compared against their own saved
  copies, and the returned `(bool, usize)` never depends on their
  contents, so the embedding omits them.
-/

namespace D19

/-- The rule representation of `enum Rule` in `src/d19.rs`: `Char(char)` is a
single-character terminal and `Alternatives(Vec<Vec<RuleId>>)` is a list of
alternative sequences of rule ids. -/
inductive Rule where
  | char (c : Char)
  | alts (alternatives : List (List Nat))
deriving DecidableEq, Repr

/-- The `RulesMap = HashMap<RuleId, Rule>` of the source, as an association
list; bindings nearer the front shadow older ones. -/
abbrev RulesMap := List (Nat × Rule)

/-- Map lookup `r[&rule_id]` / `r.get(&rule_id)` returning the most recently
inserted binding for `rid`.  `HashMap` indexing panics on a missing key; the
missing case is `none` here and callers propagate it. -/
def lookupRule (r : RulesMap) (rid : Nat) : Option Rule :=
  (r.find? (fun p => p.1 == rid)).map (fun p => p.2)

/-- Map update `HashMap::insert` (also the `*v = ...` writes through `get_mut`):
the new binding is placed in front, so `lookupRule` sees the last write. -/
def insertRule (r : RulesMap) (rid : Nat) (rule : Rule) : RulesMap :=
  (rid, rule) :: r

/-- All rule ids referenced from inside a rule's alternatives. -/
def ruleRefs : Rule → List Nat
  | .char _ => []
  | .alts alternatives => alternatives.flatten

/-- Every rule id referenced inside any sequence of the grammar is itself a
key of the grammar. -/
def AllRefsDefined (r : RulesMap) : Prop :=
  ∀ p ∈ r, ∀ j ∈ ruleRefs p.2, (lookupRule r j).isSome

instance (r : RulesMap) : Decidable (AllRefsDefined r) := by
  unfold AllRefsDefined; infer_instance

/-- The alternative sequences of a rule (empty for a terminal). -/
def ruleSeqs : Rule → List (List Nat)
  | .char _ => []
  | .alts alternatives => alternatives

/-- Every alternative of every `Alternatives` rule of the grammar is a
non-empty sequence of rule ids. -/
def HasNonEmptySeqs (r : RulesMap) : Prop :=
  ∀ p ∈ r, ∀ seq ∈ ruleSeqs p.2, seq ≠ []

instance (r : RulesMap) : Decidable (HasNonEmptySeqs r) := by
  unfold HasNonEmptySeqs; infer_instance

/-- Rust `Vec::collect` over an iterator of `Option`s, or the panic-propagating
form of `iter().map(f)` when each `f` call may panic: the first `none`
aborts the whole traversal. -/
def mapOption (f : α → Option β) : List α → Option (List β)
  | [] => some []
  | a :: l =>
    match f a with
    | none => none
    | some b =>
      match mapOption f l with
      | none => none
      | some bs => some (b :: bs)

/-- Panic-propagating left fold, embedding `Iterator::fold` whose folded
closure may panic. -/
def foldOption (f : β → α → Option β) : β → List α → Option β
  | b, [] => some b
  | b, a :: l =>
    match f b a with
    | none => none
    | some b2 => foldOption f b2 l

/-- `Itertools::multi_cartesian_product` as used by `check_if_matches_sequence`:
all choice vectors, the first coordinate varying slowest.  On an empty list of
iterators itertools yields an empty iterator (not `[[]]`), and this definition
mirrors that. -/
def multiCartesianProduct : List (List Nat) → List (List Nat)
  | [] => []
  | [xs] => xs.map (fun x => [x])
  | xs :: rest => xs.flatMap (fun x => (multiCartesianProduct rest).map (fun ys => x :: ys))

/-- `alt_count` from `src/d19.rs`: the number of alternatives of a rule
(`1` for a terminal); panics (`none`) on a missing rule id. -/
def altCount (r : RulesMap) (rid : Nat) : Option Nat :=
  match lookupRule r rid with
  | none => none
  | some (.char _) => some 1
  | some (.alts alternatives) => some alternatives.length

/-! ### The Suffix-Set Recognizer (`is_message_valid_using_list_of_suffixes`) -/

/-- The body of `set_of_matched_messages_for_rule_id`, abstracted over the
recursive call: `messages.iter().map(|m| recognizer(m, r, rule_id)).flatten()`. -/
def setOfMatchedAux (recog : List Char → RulesMap → Nat → Option (List (List Char)))
    (msgs : List (List Char)) (r : RulesMap) (rid : Nat) : Option (List (List Char)) :=
  match mapOption (fun msg => recog msg r rid) msgs with
  | none => none
  | some ls => some ls.flatten

/-- One unfolding of `is_message_valid_using_list_of_suffixes`, abstracted over
the recursive call: an empty message yields the empty suffix list; a terminal
consumes the first character when it matches; an `Alternatives` rule folds each
sequence left-to-right starting from `vec![m]` and concatenates the results of
all alternatives. -/
def suffixesStep (recog : List Char → RulesMap → Nat → Option (List (List Char)))
    (m : List Char) (r : RulesMap) (rid : Nat) : Option (List (List Char)) :=
  if m.isEmpty then some []
  else
    match lookupRule r rid with
    | none => none
    | some (.char c) => if m.head? = some c then some [m.tail] else some []
    | some (.alts alternatives) =>
      match mapOption
          (fun seq => foldOption (fun msgs j => setOfMatchedAux recog msgs r j) [m] seq)
          alternatives with
      | none => none
      | some ls => some ls.flatten

/-- `is_message_valid_using_list_of_suffixes` from `src/d19.rs`, with fuel:
returns the list of suffixes of `m` left over after matching rule `rid`
(with multiplicity, in the source's order). -/
def isMessageValidUsingListOfSuffixes : Nat → List Char → RulesMap → Nat →
    Option (List (List Char))
  | 0, _, _, _ => none
  | fuel + 1, m, r, rid => suffixesStep (isMessageValidUsingListOfSuffixes fuel) m r rid

/-- `set_of_matched_messages_for_rule_id` from `src/d19.rs`. -/
def setOfMatchedMessagesForRuleId (fuel : Nat) (msgs : List (List Char)) (r : RulesMap)
    (rid : Nat) : Option (List (List Char)) :=
  setOfMatchedAux (isMessageValidUsingListOfSuffixes fuel) msgs r rid

/-- `is_message_valid_using_list_of_suffixes_wrapper`: a message is valid iff
some leftover suffix of matching rule `0` is empty. -/
def isMessageValidUsingListOfSuffixesWrapper (fuel : Nat) (r : RulesMap) (m : List Char) :
    Option Bool :=
  match isMessageValidUsingListOfSuffixes fuel m r 0 with
  | none => none
  | some l => some (l.any (fun s => s.isEmpty))

/-! ### The Backtracking Recognizer (`is_message_valid_using_recursive_descent`) -/

/-- The inner loop of `check_if_matches_sequence` for one candidate choice of
alternatives: the sequence is zipped with the chosen alternative indices and
matched left to right threading the position.  `some (some idx)` means every
element matched, ending at `idx`; `some none` means some element failed
(`valid_cartesian_choice = false`); `none` propagates a panic / exhausted
fuel from the recursive descent. -/
def trySequenceAux (step : Nat → Nat → Nat → Option (Bool × Nat)) :
    List (Nat × Nat) → Nat → Option (Option Nat)
  | [], pos => some (some pos)
  | (rid, alt) :: rest, pos =>
    match step pos rid alt with
    | none => none
    | some (true, idx) => trySequenceAux step rest idx
    | some (false, _) => some none

/-- The outer loop of `check_if_matches_sequence`: candidate choice vectors are
tried in order; the first fully matching candidate returns `(true, end)`, and
when all candidates fail the result is `(false, message_pos)`. -/
def tryCandidatesAux (step : Nat → Nat → Nat → Option (Bool × Nat)) (seq : List Nat)
    (pos : Nat) : List (List Nat) → Option (Bool × Nat)
  | [] => some (false, pos)
  | cand :: rest =>
    match trySequenceAux step (seq.zip cand) pos with
    | none => none
    | some (some idx) => some (true, idx)
    | some none => tryCandidatesAux step seq pos rest

/-- `check_if_matches_sequence` from `src/d19.rs`, abstracted over the
recursive call `step pos rule_id alternative`: builds the cartesian product of
`0..alt_count` ranges over the sequence and tries each candidate in order. -/
def checkIfMatchesSequenceAux (step : Nat → Nat → Nat → Option (Bool × Nat)) (r : RulesMap)
    (seq : List Nat) (pos : Nat) : Option (Bool × Nat) :=
  match mapOption (altCount r) seq with
  | none => none
  | some counts => tryCandidatesAux step seq pos (multiCartesianProduct (counts.map List.range))

/-- One unfolding of `is_message_valid_using_recursive_descent`: the rule is
looked up first, any position at or past the end of the message fails, a
terminal compares the character at the position, and an `Alternatives` rule
matches the single alternative selected by `alt` via
`check_if_matches_sequence`. -/
def descentStep (recur : Nat → Nat → Nat → Option (Bool × Nat)) (m : List Char)
    (r : RulesMap) (pos rid alt : Nat) : Option (Bool × Nat) :=
  match lookupRule r rid with
  | none => none
  | some rule =>
    if m.length ≤ pos then some (false, pos)
    else
      match rule with
      | .char c =>
        match m.get? pos with
        | none => none
        | some tc => some (if tc = c then (true, pos + 1) else (false, pos))
      | .alts alternatives =>
        match alternatives.get? alt with
        | none => none
        | some seq => checkIfMatchesSequenceAux recur r seq pos

/-- `is_message_valid_using_recursive_descent` from `src/d19.rs`, with fuel. -/
def isMessageValidUsingRecursiveDescent : Nat → List Char → RulesMap → Nat → Nat → Nat →
    Option (Bool × Nat)
  | 0, _, _, _, _, _ => none
  | fuel + 1, m, r, pos, rid, alt =>
    descentStep (isMessageValidUsingRecursiveDescent fuel m r) m r pos rid alt

/-- `check_if_matches_sequence` with the recursive descent at a given fuel
plugged in. -/
def checkIfMatchesSequence (fuel : Nat) (m : List Char) (r : RulesMap) (seq : List Nat)
    (pos : Nat) : Option (Bool × Nat) :=
  checkIfMatchesSequenceAux (isMessageValidUsingRecursiveDescent fuel m r) r seq pos

/-- `is_message_valid_using_recursive_descent_wrapper`: match rule `0`,
alternative `0`, from position `0`; the verdict is `is_match` and the final
position equal to the message length. -/
def isMessageValidUsingRecursiveDescentWrapper (fuel : Nat) (r : RulesMap) (m : List Char) :
    Option Bool :=
  match isMessageValidUsingRecursiveDescent fuel m r 0 0 0 with
  | none => none
  | some (isMatch, finalIdx) =>
    if !isMatch then some false else some (finalIdx == m.length)

/-! ### Loop rewriter and shortest-match length -/

/-- `add_loop_to_rules` from `src/d19.rs`: rewrite rule `8` to `42 | 1000` and
rule `11` to `42 31 | 2000` when present, and unconditionally insert the helper
rules `1000 : 42 8` and `2000 : 42 11 31`. -/
def addLoopToRules (r : RulesMap) : RulesMap :=
  let r1 :=
    match lookupRule r 8 with
    | some _ => insertRule r 8 (.alts [[42], [1000]])
    | none => r
  let r2 := insertRule r1 1000 (.alts [[42, 8]])
  let r3 :=
    match lookupRule r2 11 with
    | some _ => insertRule r2 11 (.alts [[42, 31], [2000]])
    | none => r2
  insertRule r3 2000 (.alts [[42, 11, 31]])

/-- One unfolding of `rule_shortest_matching_len`: `1` for a terminal; for
`Alternatives`, the per-alternative sums of the recursive lengths are folded
with `max` by `fold1` (`none` on an empty alternative list, where `fold1`
yields `None` and the source unwraps it). -/
def ruleShortestStep (recur : RulesMap → Nat → Option Nat) (r : RulesMap) (rid : Nat) :
    Option Nat :=
  match lookupRule r rid with
  | none => none
  | some (.char _) => some 1
  | some (.alts alternatives) =>
    match mapOption
        (fun seq =>
          match mapOption (fun j => recur r j) seq with
          | none => none
          | some ls => some (ls.foldl (· + ·) 0))
        alternatives with
    | none => none
    | some sums =>
      match sums with
      | [] => none
      | x :: xs => some (xs.foldl max x)

/-- `rule_shortest_matching_len` from `src/d19.rs`, with fuel. -/
def ruleShortestMatchingLen : Nat → RulesMap → Nat → Option Nat
  | 0, _, _ => none
  | fuel + 1, r, rid => ruleShortestStep (ruleShortestMatchingLen fuel) r rid

/-! ### The input parser (`parse_rules_and_messages`)

The source works on `&str`; the embedding works on `List Char`.  The inputs of
interest are ASCII, so byte indices and char indices coincide. -/

/-- Rust `str::trim`: drop whitespace from both ends.  `Char.isWhitespace`
covers the whitespace characters occurring in the puzzle inputs. -/
def rustTrim (s : List Char) : List Char :=
  ((s.dropWhile Char.isWhitespace).reverse.dropWhile Char.isWhitespace).reverse

/-- Rust `s.find("\n\n")`, specialised to the two-newline separator: the index
of the first occurrence, or `none`. -/
def findBlankSep : List Char → Option Nat
  | '\n' :: '\n' :: _ => some 0
  | _ :: rest => (findBlankSep rest).map (· + 1)
  | [] => none

/-- Rust `str::split` on a single separator character; always yields at least
one (possibly empty) piece. -/
def splitChar (sep : Char) : List Char → List (List Char)
  | [] => [[]]
  | c :: rest =>
    let ps := splitChar sep rest
    if c == sep then [] :: ps
    else
      match ps with
      | [] => [[c]]
      | p :: pr => (c :: p) :: pr

/-- Rust `str::split(" | ")`, specialised to the three-character separator of
rule alternatives. -/
def splitSepBar : List Char → List (List Char)
  | [] => [[]]
  | ' ' :: '|' :: ' ' :: rest => [] :: splitSepBar rest
  | c :: rest =>
    match splitSepBar rest with
    | [] => [[c]]
    | p :: pr => (c :: p) :: pr

/-- Worker for `splitWhitespaceChars`; `cur` is the current word reversed. -/
def splitWSAux : List Char → List Char → List (List Char)
  | cur, [] => if cur.isEmpty then [] else [cur.reverse]
  | cur, c :: rest =>
    if c.isWhitespace then
      if cur.isEmpty then splitWSAux [] rest else cur.reverse :: splitWSAux [] rest
    else splitWSAux (c :: cur) rest

/-- Rust `str::split_whitespace`: maximal non-whitespace runs, no empty
pieces. -/
def splitWhitespaceChars (s : List Char) : List (List Char) :=
  splitWSAux [] s

/-- Worker for `parseUsize`: fold decimal digits, failing on any non-digit. -/
def digitsToNat : Nat → List Char → Option Nat
  | acc, [] => some acc
  | acc, c :: rest =>
    if c.isDigit then digitsToNat (acc * 10 + (c.toNat - 48)) rest else none

/-- Rust `str::parse::<usize>()`: an optional leading `+`, then one or more
decimal digits and nothing else.  (The u64 overflow error of the original is
not modelled; every integer in the inputs under study is tiny.) -/
def parseUsize : List Char → Option Nat
  | [] => none
  | '+' :: rest => if rest.isEmpty then none else digitsToNat 0 rest
  | s => digitsToNat 0 s

/-- Rust `str::lines`: split on `'\n'`, drop a final empty piece produced by a
trailing newline, and strip a trailing `'\r'` from each line. -/
def rustLines (s : List Char) : List (List Char) :=
  if s.isEmpty then []
  else
    let ps := splitChar '\n' s
    let ps := if ps.getLast? = some [] then ps.dropLast else ps
    ps.map (fun l => if l.getLast? = some '\r' then l.dropLast else l)

/-- One rule line of `parse_rules_and_messages`: split on `':'`, parse the id
with `unwrap`ped `parse::<usize>`, take the piece after the first `':'`
(`unwrap`ped — a line with no `':'` panics), trim it and split it on `" | "`.
A first alternative starting with `'"'` makes the rule a terminal whose
character is `chars().nth(1).unwrap()` (the remaining alternatives are
ignored, as in the source); otherwise every alternative is split on
whitespace and each token parsed with `unwrap`ped `parse::<usize>`.  Any
panic is `none`. -/
def parseRuleLine (l : List Char) : Option (Nat × Rule) :=
  let pieces := splitChar ':' l
  match pieces.head? with
  | none => none
  | some p0 =>
    match parseUsize p0 with
    | none => none
    | some ruleId =>
      match pieces.get? 1 with
      | none => none
      | some p1 =>
        let body := rustTrim p1
        let alternativeStrs := splitSepBar body
        match alternativeStrs.head? with
        | none => none
        | some a1 =>
          if a1.head? = some '"' then
            match a1.get? 1 with
            | none => none
            | some c => some (ruleId, Rule.char c)
          else
            match mapOption (fun a => mapOption parseUsize (splitWhitespaceChars a))
                alternativeStrs with
            | none => none
            | some seqs => some (ruleId, Rule.alts seqs)

/-- `parse_rules_and_messages` from `src/d19.rs`: trim the input, split it at
the first blank line, parse each line of the first part as a rule (collecting
into the map, later duplicates shadowing earlier ones) and return the lines of
the second part as the messages.  All the source's `unwrap` panics are
`none`. -/
def parseRulesAndMessages (s : List Char) : Option (RulesMap × List (List Char)) :=
  let t := rustTrim s
  match findBlankSep t with
  | none => none
  | some idx =>
    let rulesStr := t.take idx
    let messagesStr := t.drop (idx + 2)
    match mapOption parseRuleLine (rustLines rulesStr) with
    | none => none
    | some ruleList =>
      let rules := ruleList.foldl (fun g p => insertRule g p.1 p.2) []
      some (rules, rustLines messagesStr)

/-- `count_valid_messages_p2` from `src/d19.rs`: parse, rewrite the loop rules
with `add_loop_to_rules`, and count the messages accepted by
`is_message_valid_using_list_of_suffixes_wrapper`.  The source also fills a
memo map of nom sub-parsers for rules `31` and `42`
(`prepare_part2_sub_parsers`), but the only consumer of that map — the
`is_message_valid_using_nom` call — is commented out, so the map is dead
setup and is omitted here (on the input of the claim using this definition it
builds without panicking).  The `dbg!(&messages[0])` panics when there are no
messages, modelled by the `head?` guard. -/
def countValidMessagesP2 (fuel : Nat) (s : List Char) : Option Nat :=
  match parseRulesAndMessages s with
  | none => none
  | some (rules, messages) =>
    let rules := addLoopToRules rules
    match messages.head? with
    | none => none
    | some _ =>
      match mapOption (fun m => isMessageValidUsingListOfSuffixesWrapper fuel rules m)
          messages with
      | none => none
      | some verdicts => some (verdicts.count true)

/-! ### The reference definition of the Suffix-Set Recognizer from the spec -/

mutual
/-- Modelled from the spec (section 4.4), as the comparison point for the code:
`SpecSuffix r rid m s` says `s` is a member of `matching_suffixes(r, rid, m)`
under the reference definition, read as the least relation closed under the
spec's clauses: a terminal relates `c :: rest` to `rest`, and an
`Alternatives` rule relates `m` to `s` when some alternative's sequence folds
`m` down to `s`. -/
inductive SpecSuffix (r : RulesMap) : Nat → List Char → List Char → Prop where
  | char (rid : Nat) (c : Char) (rest : List Char) :
      lookupRule r rid = some (.char c) → SpecSuffix r rid (c :: rest) rest
  | alts (rid : Nat) (alternatives : List (List Nat)) (seq : List Nat) (m s : List Char) :
      lookupRule r rid = some (.alts alternatives) → seq ∈ alternatives →
      SpecSeqFold r seq m s → SpecSuffix r rid m s

/-- The left-to-right fold of the spec's reference definition over one
sequence: `SpecSeqFold r seq m s` says `s` is reachable from `m` by matching
the rule ids of `seq` in order. -/
inductive SpecSeqFold (r : RulesMap) : List Nat → List Char → List Char → Prop where
  | nil (m : List Char) : SpecSeqFold r [] m m
  | cons (rid : Nat) (rest : List Nat) (m mid s : List Char) :
      SpecSuffix r rid m mid → SpecSeqFold r rest mid s → SpecSeqFold r (rid :: rest) m s
end

mutual
/-- Consuming derivations: the sub-relation of `SpecSuffix` in which every
node's input string is non-empty and every sequence used is non-empty.
Successful runs of the Backtracking Recognizer only produce derivations of
this form (its position guard rejects matches at end of input, and its
cartesian product over an empty sequence has no candidates), and on grammars
with non-empty alternative sequences every `SpecSuffix` derivation is of this
form. -/
inductive CSuffix (r : RulesMap) : Nat → List Char → List Char → Prop where
  | char (rid : Nat) (c : Char) (rest : List Char) :
      lookupRule r rid = some (.char c) → CSuffix r rid (c :: rest) rest
  | alts (rid : Nat) (alternatives : List (List Nat)) (seq : List Nat) (m s : List Char) :
      lookupRule r rid = some (.alts alternatives) → seq ∈ alternatives → seq ≠ [] →
      m ≠ [] → CSeqFold r seq m s → CSuffix r rid m s

/-- The sequence-fold companion of `CSuffix`. -/
inductive CSeqFold (r : RulesMap) : List Nat → List Char → List Char → Prop where
  | nil (m : List Char) : CSeqFold r [] m m
  | cons (rid : Nat) (rest : List Nat) (m mid s : List Char) :
      CSuffix r rid m mid → CSeqFold r rest mid s → CSeqFold r (rid :: rest) m s
end

/-! ### Reachability between rules -/

/-- Rule `i` directly references rule `j`: `j` occurs in one of the
alternative sequences of `i`'s definition. -/
def RefersTo (r : RulesMap) (i j : Nat) : Prop :=
  ∃ rule, lookupRule r i = some rule ∧ j ∈ ruleRefs rule

/-- A grammar is non-recursive when no rule's identifier is reachable (through
one or more direct references) from inside its own alternatives. -/
def NonRecursive (r : RulesMap) : Prop :=
  ∀ i, ¬ Relation.TransGen (RefersTo r) i i

/-! ### Concrete grammars and inputs used in the theorems -/

/-- The non-recursive grammar `0: 5 2; 5: 1; 1: 2 | 2 2; 2: "a"` on which the
two recognizers disagree. -/
def c1CounterGrammar : RulesMap :=
  [(0, .alts [[5, 2]]), (5, .alts [[1]]), (1, .alts [[2], [2, 2]]), (2, .char 'a')]

/-- A rank function witnessing that `c1CounterGrammar` is non-recursive:
every direct reference strictly decreases it. -/
def c1Rank (i : Nat) : Nat :=
  if i = 0 then 3 else if i = 5 then 2 else if i = 1 then 1 else 0

/-- The grammar `0: 1 2; 1: "a"; 2: "b"` of the source's second part-1 test. -/
def abGrammar : RulesMap :=
  [(0, .alts [[1, 2]]), (1, .char 'a'), (2, .char 'b')]

/-- The grammar `1: "a"; 2: 1 1; 3: 1 | 2` on which
`rule_shortest_matching_len` overestimates the shortest derivable length. -/
def shortestBugGrammar : RulesMap :=
  [(1, .char 'a'), (2, .alts [[1, 1]]), (3, .alts [[1], [2]])]

/-- The left-recursive single-rule grammar `0: 0`, with a non-empty
alternative sequence and all referenced ids defined. -/
def leftRecGrammar : RulesMap := [(0, .alts [[0]])]

/-- The grammar whose only rule has a single empty alternative sequence. -/
def emptySeqGrammar : RulesMap := [(0, .alts [[]])]

/-- The raw test input of `test_p2` in `src/d19.rs`: the 31-rule sample
grammar and the sample messages bundled with it. -/
def d19SampleInput : String :=
  "\n42: 9 14 | 10 1\n9: 14 27 | 1 26\n10: 23 14 | 28 1\n1: \"a\"\n11: 42 31\n5: 1 14 | 15 1\n19: 14 1 | 14 14\n12: 24 14 | 19 1\n16: 15 1 | 14 14\n31: 14 17 | 1 13\n6: 14 14 | 1 14\n2: 1 24 | 14 4\n0: 8 11\n13: 14 3 | 1 12\n15: 1 | 14\n17: 14 2 | 1 7\n23: 25 1 | 22 14\n28: 16 1\n4: 1 1\n20: 14 14 | 1 15\n3: 5 14 | 16 1\n27: 1 6 | 14 18\n14: \"b\"\n21: 14 1 | 1 14\n25: 1 1 | 1 14\n22: 14 14\n8: 42\n26: 14 22 | 1 20\n18: 15 15\n7: 14 5 | 1 21\n24: 14 1\n\nbbabbbbaabaabba\nbabbbbaabbbbbabbbbbbaabaaabaaa\naaabbbbbbaaaabaababaabababbabaaabbababababaaa\nbbbbbbbaaaabbbbaaabbabaaa\nbbbababbbbaaaaaaaabbababaaababaabab\nababaaaaaabaaab\nababaaaaabbbaba\nbaabbaaaabbaaaababbaababb\nabbbbabbbbaaaababbbbbbaaaababb\naaaaabbaabaaaaababaa\naaaabbaabbaaaaaaabbbabbbaaabbaabaaa\naabbbbbaabbbaaaaaabbbbbababaaaaabbaaabba\n"

/-! ### Basic lemmas about the embedding's primitives -/

theorem lookupRule_cons (k : Nat) (v : Rule) (r : RulesMap) (i : Nat) :
    lookupRule ((k, v) :: r) i = if k = i then some v else lookupRule r i := by
  by_cases h : k = i <;> simp [lookupRule, List.find?_cons, h]

theorem lookupRule_insert (r : RulesMap) (j i : Nat) (v : Rule) :
    lookupRule (insertRule r j v) i = if j = i then some v else lookupRule r i :=
  lookupRule_cons j v r i

theorem lookupRule_mem {r : RulesMap} {i : Nat} {rule : Rule}
    (h : lookupRule r i = some rule) : (i, rule) ∈ r := by
  unfold lookupRule at h
  cases hf : r.find? (fun p => p.1 == i) with
  | none => rw [hf] at h; simp at h
  | some p =>
    rw [hf] at h
    simp only [Option.map_some'] at h
    have hm := List.mem_of_find?_eq_some hf
    have hp := List.find?_some hf
    have : p.1 = i := by simpa using hp
    obtain ⟨p1, p2⟩ := p
    simp only at h this
    subst this
    obtain rfl : p2 = rule := Option.some.inj h
    exact hm

theorem mapOption_eq_none_of_mem {f : α → Option β} {l : List α} {a : α}
    (ha : a ∈ l) (hf : f a = none) : mapOption f l = none := by
  induction l with
  | nil => cases ha
  | cons b t ih =>
    unfold mapOption
    cases hb : f b with
    | none => rfl
    | some v =>
      rcases List.mem_cons.mp ha with h | h
      · subst h; rw [hf] at hb; cases hb
      · rw [ih h]

theorem mapOption_mem_of_mem {f : α → Option β} {l : List α} {bs : List β}
    (h : mapOption f l = some bs) {a : α} (ha : a ∈ l) :
    ∃ b, f a = some b ∧ b ∈ bs := by
  induction l generalizing bs with
  | nil => cases ha
  | cons c t ih =>
    unfold mapOption at h
    cases hc : f c with
    | none => rw [hc] at h; cases h
    | some v =>
      rw [hc] at h
      cases ht : mapOption f t with
      | none => rw [ht] at h; cases h
      | some vs =>
        rw [ht] at h
        cases h
        rcases List.mem_cons.mp ha with h | h
        · subst h; exact ⟨v, hc, List.mem_cons_self _ _⟩
        · obtain ⟨b, hb1, hb2⟩ := ih ht h
          exact ⟨b, hb1, List.mem_cons_of_mem _ hb2⟩

theorem mapOption_mem_src {f : α → Option β} {l : List α} {bs : List β}
    (h : mapOption f l = some bs) {b : β} (hb : b ∈ bs) :
    ∃ a ∈ l, f a = some b := by
  induction l generalizing bs with
  | nil =>
    unfold mapOption at h
    cases h; cases hb
  | cons c t ih =>
    unfold mapOption at h
    cases hc : f c with
    | none => rw [hc] at h; cases h
    | some v =>
      rw [hc] at h
      cases ht : mapOption f t with
      | none => rw [ht] at h; cases h
      | some vs =>
        rw [ht] at h
        cases h
        rcases List.mem_cons.mp hb with h | h
        · subst h; exact ⟨c, List.mem_cons_self _ _, hc⟩
        · obtain ⟨a, ha1, ha2⟩ := ih ht h
          exact ⟨a, List.mem_cons_of_mem _ ha1, ha2⟩

theorem mapOption_length {f : α → Option β} {l : List α} {bs : List β}
    (h : mapOption f l = some bs) : bs.length = l.length := by
  induction l generalizing bs with
  | nil => unfold mapOption at h; cases h; rfl
  | cons c t ih =>
    unfold mapOption at h
    cases hc : f c with
    | none => rw [hc] at h; cases h
    | some v =>
      rw [hc] at h
      cases ht : mapOption f t with
      | none => rw [ht] at h; cases h
      | some vs =>
        rw [ht] at h
        cases h
        simp [ih ht]

theorem transGen_rank_lt {rel : α → α → Prop} {f : α → Nat}
    (h : ∀ a b, rel a b → f b < f a) {a b : α} (hab : Relation.TransGen rel a b) :
    f b < f a := by
  induction hab with
  | single h1 => exact h _ _ h1
  | tail _ h1 ih => exact (h _ _ h1).trans ih

/-! ### C10: the Suffix-Set Recognizer on the empty string -/

/-- C10: for every grammar and rule id, the Suffix-Set Recognizer applied to
the empty string returns the empty suffix set, and consequently the empty
message is never reported valid by
`is_message_valid_using_list_of_suffixes_wrapper`, for any grammar and fuel. -/
theorem c10_empty_message (r : RulesMap) (rid fuel : Nat) :
    isMessageValidUsingListOfSuffixes (fuel + 1) [] r rid = some [] ∧
    ∀ f, isMessageValidUsingListOfSuffixesWrapper f r [] ≠ some true := by
  refine ⟨by simp [isMessageValidUsingListOfSuffixes, suffixesStep], ?_⟩
  intro f
  cases f with
  | zero =>
    simp [isMessageValidUsingListOfSuffixesWrapper, isMessageValidUsingListOfSuffixes]
  | succ f =>
    simp [isMessageValidUsingListOfSuffixesWrapper, isMessageValidUsingListOfSuffixes,
      suffixesStep]

/-! ### C7: the Loop Rewriter's frame -/

/-- C7 counterexample: `add_loop_to_rules` unconditionally inserts the helper
rule `1000`, so a grammar that already defines rule `1000` (here as the
terminal `"x"`) has that definition replaced even though `1000` is neither
rule `8` nor rule `11`. -/
theorem c7_counterexample :
    lookupRule [(1000, Rule.char 'x')] 1000 = some (Rule.char 'x') ∧
    lookupRule (addLoopToRules [(1000, Rule.char 'x')]) 1000 =
      some (Rule.alts [[42, 8]]) := by
  constructor <;> rfl

/-- C7 amended: `add_loop_to_rules`, viewed as a function from input grammar
to derived grammar, preserves the definition of every rule id other than `8`,
`11` and the two helper ids `1000` and `2000` that it inserts
unconditionally. -/
theorem c7_addLoopToRules_preserves (r : RulesMap) (i : Nat)
    (h8 : i ≠ 8) (h11 : i ≠ 11) (h1000 : i ≠ 1000) (h2000 : i ≠ 2000) :
    lookupRule (addLoopToRules r) i = lookupRule r i := by
  have e2000 : (2000 : Nat) ≠ i := fun h => h2000 h.symm
  have e1000 : (1000 : Nat) ≠ i := fun h => h1000 h.symm
  have e8 : (8 : Nat) ≠ i := fun h => h8 h.symm
  have e11 : (11 : Nat) ≠ i := fun h => h11 h.symm
  unfold addLoopToRules
  cases hl8 : lookupRule r 8 with
  | none =>
    cases hl11 : lookupRule (insertRule r 1000 (Rule.alts [[42, 8]])) 11 with
    | none => simp [hl8, hl11, lookupRule_insert, e1000, e2000]
    | some v => simp [hl8, hl11, lookupRule_insert, e1000, e2000, e11]
  | some v =>
    cases hl11 : lookupRule
        (insertRule (insertRule r 8 (Rule.alts [[42], [1000]])) 1000 (Rule.alts [[42, 8]]))
        11 with
    | none => simp [hl8, hl11, lookupRule_insert, e1000, e2000, e8]
    | some w => simp [hl8, hl11, lookupRule_insert, e1000, e2000, e8, e11]

/-- C7 witness: the amended preservation statement at a concrete grammar and
rule id. -/
theorem c7_witness :
    lookupRule (addLoopToRules [(0, Rule.char 'a')]) 0 =
      lookupRule [(0, Rule.char 'a')] 0 :=
  c7_addLoopToRules_preserves [(0, Rule.char 'a')] 0 (by decide) (by decide)
    (by decide) (by decide)

/-! ### C5: terminal matching and the overall verdict of the Backtracking
Recognizer -/

/-- C5: in the Backtracking Recognizer, matching a terminal rule at a position
succeeds (returning `position+1`) iff the position is inside the message and
the character there equals the terminal, failing at end-of-input or on
mismatch; and the wrapper's verdict is `true` iff the recursive match of rule
`0` from position `0` (with alternative `0`, as the wrapper calls it) succeeds
with final position equal to the message length. -/
theorem c5_terminal_and_verdict (r : RulesMap) (m : List Char) (fuel : Nat) :
    (∀ pos rid alt c, lookupRule r rid = some (Rule.char c) →
      isMessageValidUsingRecursiveDescent (fuel + 1) m r pos rid alt =
        some (if pos < m.length ∧ m.get? pos = some c then (true, pos + 1)
              else (false, pos))) ∧
    (∀ b, isMessageValidUsingRecursiveDescentWrapper fuel r m = some b →
      (b = true ↔
        isMessageValidUsingRecursiveDescent fuel m r 0 0 0 = some (true, m.length))) := by
  constructor
  · intro pos rid alt c hc
    simp only [isMessageValidUsingRecursiveDescent, descentStep, hc]
    by_cases hp : m.length ≤ pos
    · rw [if_pos hp]
      have hno : ¬ (pos < m.length ∧ m.get? pos = some c) := by
        rintro ⟨h1, _⟩; omega
      rw [if_neg hno]
    · rw [if_neg hp]
      have hlt : pos < m.length := Nat.lt_of_not_le hp
      obtain ⟨tc, hget⟩ : ∃ tc, m.get? pos = some tc :=
        ⟨m.get ⟨pos, hlt⟩, List.get?_eq_get hlt⟩
      rw [hget]
      by_cases he : tc = c
      · simp [he, hlt]
      · simp only [Option.some.injEq]
        rw [if_neg he, if_neg (by rintro ⟨_, h2⟩; exact he h2)]
  · intro b hb
    unfold isMessageValidUsingRecursiveDescentWrapper at hb
    cases hd : isMessageValidUsingRecursiveDescent fuel m r 0 0 0 with
    | none => rw [hd] at hb; cases hb
    | some p =>
      obtain ⟨isM, idx⟩ := p
      rw [hd] at hb
      cases isM with
      | false =>
        simp only [Bool.not_false, if_true] at hb
        cases hb
        simp
      | true =>
        simp only [Bool.not_true, if_false] at hb
        cases hb
        constructor
        · intro h
          have : idx = m.length := by simpa using h
          rw [this]
        · intro h
          have : idx = m.length := by
            have := Option.some.inj h
            exact congrArg Prod.snd this
          simp [this]

/-- C5 witness: the terminal clause and the verdict clause instantiated at the
grammar `0: "a"` and the message `"a"`. -/
theorem c5_witness :
    isMessageValidUsingRecursiveDescent 1 ['a'] [(0, Rule.char 'a')] 0 0 0 =
      some (if 0 < List.length ['a'] ∧ List.get? ['a'] 0 = some 'a' then (true, 0 + 1)
            else (false, 0)) ∧
    (true = true ↔
      isMessageValidUsingRecursiveDescent 3 ['a'] [(0, Rule.char 'a')] 0 0 0 =
        some (true, List.length ['a'])) := by
  constructor
  · exact (c5_terminal_and_verdict [(0, Rule.char 'a')] ['a'] 0).1 0 0 0 'a' rfl
  · exact (c5_terminal_and_verdict [(0, Rule.char 'a')] ['a'] 3).2 true (by decide)

/-! ### C4: `rule_shortest_matching_len` -/

/-- C4 (a bug in the source): `rule_shortest_matching_len` folds the
per-alternative sums with `max`, not `min`: on the grammar
`1: "a"; 2: 1 1; 3: 1 | 2` it returns `2` for rule `3`, yet rule `3` derives
the one-character string `"a"` (second conjunct, a reference derivation), so
the result is not the length of the shortest derivable terminal string and
the repetition cutoff of `is_message_valid_using_nom` based on it can stop
the search before all feasible repetition counts are tried. -/
theorem c4_shortest_len_bug :
    ruleShortestMatchingLen 3 shortestBugGrammar 3 = some 2 ∧
    SpecSuffix shortestBugGrammar 3 ['a'] [] := by
  refine ⟨by decide, ?_⟩
  refine SpecSuffix.alts 3 [[1], [2]] [1] ['a'] [] rfl (by decide) ?_
  exact SpecSeqFold.cons 1 [] ['a'] [] []
    (SpecSuffix.char 1 'a' [] rfl) (SpecSeqFold.nil [])

/-! ### C8: malformed rule lines make parsing panic -/

theorem splitChar_ne_nil (sep : Char) (l : List Char) : splitChar sep l ≠ [] := by
  cases l with
  | nil => simp [splitChar]
  | cons c rest =>
    unfold splitChar
    by_cases h : c == sep
    · simp [h]
    · simp only [h, Bool.false_eq_true, if_false]
      cases splitChar sep rest <;> simp

theorem splitChar_of_not_mem {sep : Char} {l : List Char} (h : sep ∉ l) :
    splitChar sep l = [l] := by
  induction l with
  | nil => rfl
  | cons c rest ih =>
    have hc : ¬ (c == sep) := by
      simp only [beq_iff_eq]
      rintro rfl
      exact h (List.mem_cons_self _ _)
    have hrest : sep ∉ rest := fun hm => h (List.mem_cons_of_mem _ hm)
    unfold splitChar
    simp only [hc, Bool.false_eq_true, if_false, ih hrest]

/-- C8 counterexample: on an input whose rule line `0 4 1 5` has no `':'`
separator, `parse_rules_and_messages` panics on an `unwrap` (modelled `none`):
it does not return a `ParseError` value — the source has no error return type
at all. -/
theorem c8_counterexample : parseRulesAndMessages ("0 4 1 5\n\nab".toList) = none := by
  decide

/-- C8 amended: a rule line with no `':'` separator panics in
`parse_rules_and_messages` (first conjunct), a rule-body token that is neither
part of a quoted terminal nor a valid integer panics (second conjunct, stated
on the line's decomposition), and a panicking rule line makes the whole parse
panic — modelled `none` — before any message is produced, rather than either
returning an error value or silently succeeding (third conjunct). -/
theorem c8_parse_panics :
    (∀ l : List Char, ':' ∉ l → parseRuleLine l = none) ∧
    (∀ l p1 a1 a t, (splitChar ':' l).get? 1 = some p1 →
      (splitSepBar (rustTrim p1)).head? = some a1 → a1.head? ≠ some '"' →
      a ∈ splitSepBar (rustTrim p1) → t ∈ splitWhitespaceChars a →
      parseUsize t = none → parseRuleLine l = none) ∧
    (∀ s idx l, findBlankSep (rustTrim s) = some idx →
      l ∈ rustLines ((rustTrim s).take idx) → parseRuleLine l = none →
      parseRulesAndMessages s = none) := by
  refine ⟨?_, ?_, ?_⟩
  · intro l hcolon
    unfold parseRuleLine
    rw [splitChar_of_not_mem hcolon]
    cases hp : parseUsize l <;> simp [hp]
  · intro l p1 a1 a t h1 h2 h3 ha ht hu
    unfold parseRuleLine
    cases hsp : splitChar ':' l with
    | nil => exact absurd hsp (splitChar_ne_nil ':' l)
    | cons p0 prest =>
      rw [hsp] at h1
      simp only [List.head?_cons]
      cases hp : parseUsize p0 with
      | none => rfl
      | some rid =>
        simp only [List.get?_cons_succ] at h1 ⊢
        rw [h1]
        have hline : mapOption parseUsize (splitWhitespaceChars a) = none :=
          mapOption_eq_none_of_mem ht hu
        have houter :
            mapOption (fun x => mapOption parseUsize (splitWhitespaceChars x))
              (splitSepBar (rustTrim p1)) = none :=
          mapOption_eq_none_of_mem ha hline
        simp only [h2]
        rw [if_neg h3, houter]
  · intro s idx l hidx hl hnone
    unfold parseRulesAndMessages
    simp only [hidx, mapOption_eq_none_of_mem hl hnone]

/-- C8 witness: the amended statement applied to the concrete input
`"abc\n\nxy"`, whose only rule line has no `':'`. -/
theorem c8_witness : parseRulesAndMessages ("abc\n\nxy".toList) = none :=
  c8_parse_panics.2.2 ("abc\n\nxy".toList) 3 ("abc".toList) (by decide) (by decide)
    (c8_parse_panics.1 ("abc".toList) (by decide))

/-! ### C3: the bundled part-2 sample -/

set_option maxRecDepth 10000 in
/-- C3 counterexample: the sample input bundled with `test_p2` provides `12`
messages, not the `15` of the claim (the test bundles only the matching
messages of the puzzle's sample). -/
theorem c3_counterexample :
    (parseRulesAndMessages d19SampleInput.toList).map (fun p => p.2.length) = some 12 := by
  decide

set_option maxRecDepth 100000 in
set_option maxHeartbeats 4000000 in
/-- C3 amended: on the bundled sample input (the 31-rule sample grammar with
rules 8 and 11 rewritten by `add_loop_to_rules` to be equivalent to
`42 | 42 8` and `42 31 | 42 11 31`), `count_valid_messages_p2` reports exactly
`12` of the `12` bundled sample messages valid. -/
theorem c3_count_valid_p2 :
    countValidMessagesP2 100 d19SampleInput.toList = some 12 ∧
    (parseRulesAndMessages d19SampleInput.toList).map (fun p => p.2.length) = some 12 := by
  constructor <;> decide

/-! ### C9: results of the Suffix-Set Recognizer are proper suffixes -/

theorem setOfMatchedAux_proper {r : RulesMap}
    (recog : List Char → RulesMap → Nat → Option (List (List Char)))
    (hrec : ∀ m2 rid2 l2, recog m2 r rid2 = some l2 →
      ∀ s ∈ l2, s <:+ m2 ∧ s.length < m2.length)
    {msgs : List (List Char)} {rid : Nat} {out : List (List Char)}
    (h : setOfMatchedAux recog msgs r rid = some out) :
    ∀ s ∈ out, ∃ x ∈ msgs, s <:+ x ∧ s.length < x.length := by
  unfold setOfMatchedAux at h
  cases hm : mapOption (fun msg => recog msg r rid) msgs with
  | none => rw [hm] at h; cases h
  | some ls =>
    rw [hm] at h
    cases h
    intro s hs
    obtain ⟨lx, hlx, hslx⟩ := List.mem_flatten.mp hs
    obtain ⟨x, hxmsgs, hx⟩ := mapOption_mem_src hm hlx
    exact ⟨x, hxmsgs, hrec x rid lx hx s hslx⟩

theorem foldOption_setOfMatched_mem {r : RulesMap}
    (recog : List Char → RulesMap → Nat → Option (List (List Char)))
    (hrec : ∀ m2 rid2 l2, recog m2 r rid2 = some l2 →
      ∀ s ∈ l2, s <:+ m2 ∧ s.length < m2.length) :
    ∀ (seq : List Nat) (msgs out : List (List Char)),
      foldOption (fun ms j => setOfMatchedAux recog ms r j) msgs seq = some out →
      ∀ s ∈ out, s ∈ msgs ∨ ∃ x ∈ msgs, s <:+ x ∧ s.length < x.length := by
  intro seq
  induction seq with
  | nil =>
    intro msgs out h s hs
    cases h
    exact Or.inl hs
  | cons j rest ihs =>
    intro msgs out h s hs
    unfold foldOption at h
    cases hsm : setOfMatchedAux recog msgs r j with
    | none => rw [hsm] at h; cases h
    | some mid =>
      rw [hsm] at h
      rcases ihs mid out h s hs with hin | ⟨x, hx, hsx⟩
      · obtain ⟨y, hy, hp⟩ := setOfMatchedAux_proper recog hrec hsm s hin
        exact Or.inr ⟨y, hy, hp⟩
      · obtain ⟨y, hy, hp⟩ := setOfMatchedAux_proper recog hrec hsm x hx
        exact Or.inr ⟨y, hy, hsx.1.trans hp.1, hsx.2.trans hp.2⟩

/-- On a grammar whose alternative sequences are all non-empty, every string
returned by the Suffix-Set Recognizer is a proper suffix of the input
message. -/
theorem suffixes_proper {r : RulesMap} (hne : HasNonEmptySeqs r) :
    ∀ fuel m rid l, isMessageValidUsingListOfSuffixes fuel m r rid = some l →
      ∀ s ∈ l, s <:+ m ∧ s.length < m.length := by
  intro fuel
  induction fuel with
  | zero => intro m rid l h; cases h
  | succ fuel ih =>
    intro m rid l h s hs
    rw [isMessageValidUsingListOfSuffixes] at h
    unfold suffixesStep at h
    by_cases hm : m.isEmpty
    · rw [if_pos hm] at h
      cases h
      cases hs
    · rw [if_neg hm] at h
      split at h
      next => cases h
      next c hl =>
        by_cases hh : m.head? = some c
        · rw [if_pos hh] at h
          cases h
          obtain rfl := List.mem_singleton.mp hs
          cases m with
          | nil => simp at hm
          | cons c0 mt => exact ⟨⟨[c0], rfl⟩, by simp⟩
        · rw [if_neg hh] at h
          cases h
          cases hs
      next alternatives hl =>
        split at h
        next => cases h
        next ls hmap =>
            cases h
            obtain ⟨lseq, hlseq, hsl⟩ := List.mem_flatten.mp hs
            obtain ⟨seq, hseqmem, hfold⟩ := mapOption_mem_src hmap hlseq
            have hseqne : seq ≠ [] :=
              hne _ (lookupRule_mem hl) seq (by simpa [ruleSeqs] using hseqmem)
            cases seq with
            | nil => exact absurd rfl hseqne
            | cons j rest =>
              unfold foldOption at hfold
              cases hsm : setOfMatchedAux (isMessageValidUsingListOfSuffixes fuel) [m] r j with
              | none => rw [hsm] at hfold; cases hfold
              | some mid =>
                rw [hsm] at hfold
                have hmid : ∀ x ∈ mid, x <:+ m ∧ x.length < m.length := by
                  intro x hx
                  obtain ⟨y, hy, hp⟩ :=
                    setOfMatchedAux_proper (isMessageValidUsingListOfSuffixes fuel) ih hsm x hx
                  obtain rfl := List.mem_singleton.mp hy
                  exact hp
                rcases foldOption_setOfMatched_mem (isMessageValidUsingListOfSuffixes fuel)
                    ih rest mid lseq hfold s hsl with hsin | ⟨x, hx, hsx⟩
                · exact hmid s hsin
                · have hx2 := hmid x hx
                  exact ⟨hsx.1.trans hx2.1, hsx.2.trans hx2.2⟩

/-- C9: on a grammar whose referenced rule ids are all defined and whose
alternative sequences are all non-empty, every string in the result of
`is_message_valid_using_list_of_suffixes` is a proper suffix of the message
(strictly shorter), i.e. matching a rule always consumes at least one
character. -/
theorem c9_results_are_proper_suffixes (r : RulesMap) (_hdef : AllRefsDefined r)
    (hne : HasNonEmptySeqs r) (fuel : Nat) (m : List Char) (rid : Nat)
    (l : List (List Char)) (h : isMessageValidUsingListOfSuffixes fuel m r rid = some l) :
    ∀ s ∈ l, s <:+ m ∧ s.length < m.length :=
  suffixes_proper hne fuel m rid l h

/-- C9 witness: the invariant applied to the grammar `0: 1 2; 1: "a"; 2: "b"`,
the message `"ab"` and rule `1`, whose suffix set is `{"b"}`. -/
theorem c9_witness :
    ['b'] <:+ ['a', 'b'] ∧ (['b'] : List Char).length < (['a', 'b'] : List Char).length :=
  c9_results_are_proper_suffixes abGrammar (by decide) (by decide) 1 ['a', 'b'] 1
    [['b']] (by decide) ['b'] (by decide)

/-! ### Unfolding equations for the recognizer steps, by rule shape -/

theorem isEmpty_false_of_ne_nil {m : List α} (h : m ≠ []) : m.isEmpty = false := by
  cases m with
  | nil => exact absurd rfl h
  | cons a t => rfl

theorem suffixesStep_lookup_none {recog : List Char → RulesMap → Nat → Option (List (List Char))}
    {r : RulesMap} {rid : Nat} (hl : lookupRule r rid = none) (m : List Char) :
    suffixesStep recog m r rid = if m.isEmpty then some [] else none := by
  unfold suffixesStep
  rw [hl]

theorem suffixesStep_char {recog : List Char → RulesMap → Nat → Option (List (List Char))}
    {r : RulesMap} {rid : Nat} {c : Char} (hl : lookupRule r rid = some (Rule.char c))
    (m : List Char) :
    suffixesStep recog m r rid =
      if m.isEmpty then some []
      else if m.head? = some c then some [m.tail] else some [] := by
  unfold suffixesStep
  rw [hl]

theorem suffixesStep_alts {recog : List Char → RulesMap → Nat → Option (List (List Char))}
    {r : RulesMap} {rid : Nat} {alternatives : List (List Nat)}
    (hl : lookupRule r rid = some (Rule.alts alternatives)) (m : List Char) :
    suffixesStep recog m r rid =
      if m.isEmpty then some []
      else
        match mapOption
            (fun seq => foldOption (fun msgs j => setOfMatchedAux recog msgs r j) [m] seq)
            alternatives with
        | none => none
        | some ls => some ls.flatten := by
  unfold suffixesStep
  rw [hl]

theorem descentStep_lookup_none {recur : Nat → Nat → Nat → Option (Bool × Nat)}
    {m : List Char} {r : RulesMap} {rid : Nat} (hl : lookupRule r rid = none)
    (pos alt : Nat) : descentStep recur m r pos rid alt = none := by
  unfold descentStep
  rw [hl]

theorem descentStep_char {recur : Nat → Nat → Nat → Option (Bool × Nat)}
    {m : List Char} {r : RulesMap} {rid : Nat} {c : Char}
    (hl : lookupRule r rid = some (Rule.char c)) (pos alt : Nat) :
    descentStep recur m r pos rid alt =
      if m.length ≤ pos then some (false, pos)
      else
        match m.get? pos with
        | none => none
        | some tc => some (if tc = c then (true, pos + 1) else (false, pos)) := by
  unfold descentStep
  rw [hl]

theorem descentStep_alts {recur : Nat → Nat → Nat → Option (Bool × Nat)}
    {m : List Char} {r : RulesMap} {rid : Nat} {alternatives : List (List Nat)}
    (hl : lookupRule r rid = some (Rule.alts alternatives)) (pos alt : Nat) :
    descentStep recur m r pos rid alt =
      if m.length ≤ pos then some (false, pos)
      else
        match alternatives.get? alt with
        | none => none
        | some seq => checkIfMatchesSequenceAux recur r seq pos := by
  unfold descentStep
  rw [hl]

/-! ### The code's suffix sets viewed through the reference relations -/

theorem cSuffix_ne_nil {r : RulesMap} {rid : Nat} {m s : List Char}
    (h : CSuffix r rid m s) : m ≠ [] := by
  refine @CSuffix.rec r (fun _ m _ _ => m ≠ []) (fun seq m _ _ => seq ≠ [] → m ≠ [])
    ?_ ?_ ?_ ?_ rid m s h
  · intro rid c rest hl
    simp
  · intro rid alternatives seq m s hl hmem hsne hm hfold ih
    exact hm
  · intro m hne2
    exact absurd rfl hne2
  · intro rid rest m mid s ha hfold ih1 ih2
    exact fun _ => ih1

/-- On a grammar whose alternative sequences are all non-empty, every
`SpecSuffix` derivation is a consuming derivation. -/
theorem specSuffix_to_cSuffix {r : RulesMap} (hne : HasNonEmptySeqs r) {rid : Nat}
    {m s : List Char} (h : SpecSuffix r rid m s) : CSuffix r rid m s := by
  refine @SpecSuffix.rec r (fun rid m s _ => CSuffix r rid m s)
    (fun seq m s _ => CSeqFold r seq m s ∧ (seq ≠ [] → m ≠ []))
    ?_ ?_ ?_ ?_ rid m s h
  · intro rid c rest hl
    exact CSuffix.char rid c rest hl
  · intro rid alternatives seq m s hl hmem hfold ih
    have hseqne : seq ≠ [] :=
      hne _ (lookupRule_mem hl) seq (by simpa [ruleSeqs] using hmem)
    exact CSuffix.alts rid alternatives seq m s hl hmem hseqne (ih.2 hseqne) ih.1
  · intro m
    exact ⟨CSeqFold.nil m, fun hne2 => absurd rfl hne2⟩
  · intro rid rest m mid s ha hfold ih1 ih2
    exact ⟨CSeqFold.cons rid rest m mid s ih1 ih2.1, fun _ => cSuffix_ne_nil ih1⟩

/-- Completeness of the Suffix-Set Recognizer for consuming derivations:
whenever the recognizer returns a suffix list, it contains every suffix
derivable by a consuming derivation. -/
theorem cSuffix_mem {r : RulesMap} {rid : Nat} {m s : List Char} (h : CSuffix r rid m s) :
    ∀ fuel l, isMessageValidUsingListOfSuffixes fuel m r rid = some l → s ∈ l := by
  refine @CSuffix.rec r
    (fun rid m s _ => ∀ fuel l, isMessageValidUsingListOfSuffixes fuel m r rid = some l → s ∈ l)
    (fun seq m s _ => ∀ fuel msgs out,
      foldOption (fun ms j => setOfMatchedAux (isMessageValidUsingListOfSuffixes fuel) ms r j)
        msgs seq = some out → m ∈ msgs → s ∈ out)
    ?_ ?_ ?_ ?_ rid m s h
  · intro rid c rest hl fuel l hsf
    cases fuel with
    | zero => cases hsf
    | succ fuel =>
      rw [isMessageValidUsingListOfSuffixes, suffixesStep_char hl] at hsf
      simp only [List.isEmpty_cons, if_false, List.head?_cons, if_pos rfl] at hsf
      cases hsf
      simp [List.tail]
  · intro rid alternatives seq m s hl hmem hsne hm hfold ih fuel l hsf
    cases fuel with
    | zero => cases hsf
    | succ fuel =>
      rw [isMessageValidUsingListOfSuffixes, suffixesStep_alts hl] at hsf
      rw [isEmpty_false_of_ne_nil hm] at hsf
      simp only [Bool.false_eq_true, if_false] at hsf
      split at hsf
      · cases hsf
      · next ls heq =>
        cases hsf
        obtain ⟨out, hout, houtls⟩ := mapOption_mem_of_mem heq hmem
        exact List.mem_flatten.mpr ⟨out, houtls, ih fuel [m] out hout (List.mem_singleton.mpr rfl)⟩
  · intro m fuel msgs out hfo hm
    cases hfo
    exact hm
  · intro rid rest m mid s ha hfold ih1 ih2 fuel msgs out hfo hm
    unfold foldOption at hfo
    split at hfo
    · cases hfo
    · next mid2 heq =>
      unfold setOfMatchedAux at heq
      split at heq
      · cases heq
      · next ls2 hmo =>
        cases heq
        obtain ⟨lm, hlm, hlmls⟩ := mapOption_mem_of_mem hmo hm
        have hmidmem : mid ∈ ls2.flatten :=
          List.mem_flatten.mpr ⟨lm, hlmls, ih1 fuel lm hlm⟩
        exact ih2 fuel ls2.flatten out hfo hmidmem

/-- Soundness helper: the left-to-right fold of the recognizer over a sequence
realises the reference fold relation. -/
theorem foldOption_mem_spec {r : RulesMap}
    (recog : List Char → RulesMap → Nat → Option (List (List Char)))
    (hrec : ∀ m2 rid2 l2, recog m2 r rid2 = some l2 → ∀ s ∈ l2, SpecSuffix r rid2 m2 s) :
    ∀ (seq : List Nat) (msgs out : List (List Char)),
      foldOption (fun ms j => setOfMatchedAux recog ms r j) msgs seq = some out →
      ∀ s ∈ out, ∃ x ∈ msgs, SpecSeqFold r seq x s := by
  intro seq
  induction seq with
  | nil =>
    intro msgs out h s hs
    cases h
    exact ⟨s, hs, SpecSeqFold.nil s⟩
  | cons j rest ihs =>
    intro msgs out h s hs
    unfold foldOption at h
    split at h
    · cases h
    · next mid heq =>
      obtain ⟨x, hxmid, hxfold⟩ := ihs mid out h s hs
      unfold setOfMatchedAux at heq
      split at heq
      · cases heq
      · next ls hmo =>
        cases heq
        obtain ⟨lx, hlxls, hxlx⟩ := List.mem_flatten.mp hxmid
        obtain ⟨y, hymem, hylx⟩ := mapOption_mem_src hmo hlxls
        exact ⟨y, hymem, SpecSeqFold.cons j rest y x s (hrec y j lx hylx x hxlx) hxfold⟩

/-- Soundness of the Suffix-Set Recognizer: every suffix it returns is a
member of the reference relation `SpecSuffix`. -/
theorem suffixes_sound {r : RulesMap} :
    ∀ fuel m rid l, isMessageValidUsingListOfSuffixes fuel m r rid = some l →
      ∀ s ∈ l, SpecSuffix r rid m s := by
  intro fuel
  induction fuel with
  | zero => intro m rid l h; cases h
  | succ fuel ih =>
    intro m rid l h s hs
    rw [isMessageValidUsingListOfSuffixes] at h
    by_cases hm : m.isEmpty
    · unfold suffixesStep at h
      rw [if_pos hm] at h
      cases h
      cases hs
    · cases hl : lookupRule r rid with
      | none =>
        rw [suffixesStep_lookup_none hl, if_neg hm] at h
        cases h
      | some rule =>
        cases rule with
        | char c =>
          rw [suffixesStep_char hl, if_neg hm] at h
          by_cases hh : m.head? = some c
          · rw [if_pos hh] at h
            cases h
            obtain rfl := List.mem_singleton.mp hs
            cases m with
            | nil => simp at hm
            | cons a t =>
              obtain rfl : a = c := by simpa using hh
              exact SpecSuffix.char rid a t hl
          · rw [if_neg hh] at h
            cases h
            cases hs
        | alts alternatives =>
          rw [suffixesStep_alts hl, if_neg hm] at h
          split at h
          · cases h
          · next ls heq =>
            cases h
            obtain ⟨lseq, hlsmem, hslseq⟩ := List.mem_flatten.mp hs
            obtain ⟨seq, hseqmem, hfold⟩ := mapOption_mem_src heq hlsmem
            obtain ⟨x, hxmem, hxfold⟩ :=
              foldOption_mem_spec (isMessageValidUsingListOfSuffixes fuel) ih seq [m] lseq
                hfold s hslseq
            obtain rfl := List.mem_singleton.mp hxmem
            exact SpecSuffix.alts rid alternatives seq x s hl hseqmem hxfold

/-! ### C2: the Suffix-Set Recognizer against the spec's reference definition -/

/-- C2 counterexample: on the grammar whose rule `0` has a single empty
alternative sequence, the reference definition makes the empty string a member
of `matching_suffixes(r, 0, "")` — so the empty message is valid under the
spec — while the code returns the empty suffix list and the wrapper reports
`false`: the code's leading `m.is_empty()` guard is absent from the reference
definition. -/
theorem c2_counterexample :
    SpecSuffix emptySeqGrammar 0 [] [] ∧
    isMessageValidUsingListOfSuffixes 1 [] emptySeqGrammar 0 = some [] ∧
    isMessageValidUsingListOfSuffixesWrapper 1 emptySeqGrammar [] = some false := by
  refine ⟨?_, by decide, by decide⟩
  exact SpecSuffix.alts 0 [[]] [] [] [] rfl (by decide) (SpecSeqFold.nil [])

/-- C2 amended: on a grammar whose alternative sequences are all non-empty,
whenever the Suffix-Set Recognizer returns a suffix list (it can diverge on
left-recursive grammars and panics on undefined rule ids), that list contains
exactly the suffixes of the spec's reference definition, read as the least
relation closed under its clauses; and a message for which the wrapper
returns a verdict is judged valid iff the empty string is in the reference
relation at rule `0`. -/
theorem c2_suffixes_match_spec (r : RulesMap) (hne : HasNonEmptySeqs r) :
    (∀ fuel m rid l, isMessageValidUsingListOfSuffixes fuel m r rid = some l →
      ∀ s, s ∈ l ↔ SpecSuffix r rid m s) ∧
    (∀ fuel m b, isMessageValidUsingListOfSuffixesWrapper fuel r m = some b →
      (b = true ↔ SpecSuffix r 0 m [])) := by
  have hmain : ∀ fuel m rid l, isMessageValidUsingListOfSuffixes fuel m r rid = some l →
      ∀ s, s ∈ l ↔ SpecSuffix r rid m s := by
    intro fuel m rid l h s
    constructor
    · exact fun hs => suffixes_sound fuel m rid l h s hs
    · intro hspec
      exact cSuffix_mem (specSuffix_to_cSuffix hne hspec) fuel l h
  refine ⟨hmain, ?_⟩
  intro fuel m b hb
  unfold isMessageValidUsingListOfSuffixesWrapper at hb
  split at hb
  · cases hb
  · next l hl =>
    cases hb
    constructor
    · intro hany
      obtain ⟨s, hsl, hse⟩ := List.any_eq_true.mp hany
      obtain rfl : s = [] := by simpa using hse
      exact (hmain fuel m 0 l hl []).mp hsl
    · intro hspec
      exact List.any_eq_true.mpr ⟨[], (hmain fuel m 0 l hl []).mpr hspec, rfl⟩

/-- C2 witness: the amended statement at the grammar `0: 1 2; 1: "a"; 2: "b"`
and the message `"ab"`, whose suffix list for rule `0` is `[""]`. -/
theorem c2_witness :
    ([] : List Char) ∈ [([] : List Char)] ↔ SpecSuffix abGrammar 0 ['a', 'b'] [] :=
  (c2_suffixes_match_spec abGrammar (by decide)).1 3 ['a', 'b'] 0 [[]] (by decide) []

/-! ### C1: the Backtracking Recognizer against the Suffix-Set Recognizer -/

theorem drop_eq_cons_of_get? {l : List α} {n : Nat} {a : α} (h : l.get? n = some a) :
    l.drop n = a :: l.drop (n + 1) := by
  induction l generalizing n with
  | nil => cases h
  | cons b t ih =>
    cases n with
    | zero =>
      obtain rfl : b = a := by simpa using h
      simp
    | succ n =>
      simpa using ih (by simpa using h)

theorem multiCartesianProduct_length {ls : List (List Nat)} {c : List Nat}
    (h : c ∈ multiCartesianProduct ls) : c.length = ls.length := by
  induction ls generalizing c with
  | nil => cases h
  | cons xs rest ih =>
    cases rest with
    | nil =>
      unfold multiCartesianProduct at h
      obtain ⟨x, _, rfl⟩ := List.mem_map.mp h
      rfl
    | cons y ys =>
      unfold multiCartesianProduct at h
      obtain ⟨x, _, hc⟩ := List.mem_flatMap.mp h
      obtain ⟨c2, hc2, rfl⟩ := List.mem_map.mp hc
      simp [ih hc2]

theorem trySequenceAux_sound {r : RulesMap} {m : List Char}
    (step : Nat → Nat → Nat → Option (Bool × Nat))
    (hstep : ∀ pos rid alt pos2, step pos rid alt = some (true, pos2) →
      pos < m.length ∧ CSuffix r rid (m.drop pos) (m.drop pos2)) :
    ∀ (seq cand : List Nat) (pos pos2 : Nat), seq.length = cand.length →
      trySequenceAux step (seq.zip cand) pos = some (some pos2) →
      CSeqFold r seq (m.drop pos) (m.drop pos2) := by
  intro seq
  induction seq with
  | nil =>
    intro cand pos pos2 _ h
    rw [List.zip_nil_left] at h
    unfold trySequenceAux at h
    obtain rfl : pos = pos2 := by simpa using h
    exact CSeqFold.nil _
  | cons j rest ih =>
    intro cand pos pos2 hlen h
    cases cand with
    | nil => cases hlen
    | cons a ca =>
      rw [List.zip_cons_cons] at h
      unfold trySequenceAux at h
      split at h
      · cases h
      · next idx heq =>
        obtain ⟨_, hcs⟩ := hstep pos j a idx heq
        exact CSeqFold.cons j rest _ _ _ hcs
          (ih ca idx pos2 (by simpa using hlen) h)
      · next heq =>
        simp at h

theorem tryCandidatesAux_sound {step : Nat → Nat → Nat → Option (Bool × Nat)}
    {seq : List Nat} {pos pos2 : Nat} :
    ∀ cands, tryCandidatesAux step seq pos cands = some (true, pos2) →
      ∃ cand ∈ cands, trySequenceAux step (seq.zip cand) pos = some (some pos2) := by
  intro cands
  induction cands with
  | nil =>
    intro h
    unfold tryCandidatesAux at h
    simp at h
  | cons cand rest ih =>
    intro h
    unfold tryCandidatesAux at h
    split at h
    · cases h
    · next idx heq =>
      obtain rfl : idx = pos2 := by simpa using h
      exact ⟨cand, List.mem_cons_self _ _, heq⟩
    · next heq =>
      obtain ⟨c2, hc2, ht⟩ := ih h
      exact ⟨c2, List.mem_cons_of_mem _ hc2, ht⟩

theorem checkIfMatchesSequenceAux_sound {r : RulesMap} {m : List Char}
    (step : Nat → Nat → Nat → Option (Bool × Nat))
    (hstep : ∀ pos rid alt pos2, step pos rid alt = some (true, pos2) →
      pos < m.length ∧ CSuffix r rid (m.drop pos) (m.drop pos2))
    {seq : List Nat} {pos pos2 : Nat}
    (h : checkIfMatchesSequenceAux step r seq pos = some (true, pos2)) :
    seq ≠ [] ∧ CSeqFold r seq (m.drop pos) (m.drop pos2) := by
  unfold checkIfMatchesSequenceAux at h
  split at h
  · cases h
  · next counts hcounts =>
    obtain ⟨cand, hcand, ht⟩ := tryCandidatesAux_sound _ h
    have hclen : cand.length = seq.length := by
      have h1 := multiCartesianProduct_length hcand
      have h2 := mapOption_length hcounts
      simpa [h2] using h1
    refine ⟨?_, trySequenceAux_sound step hstep seq cand pos pos2 hclen.symm ht⟩
    rintro rfl
    have hc0 : counts = [] := List.length_eq_zero.mp (by simpa using mapOption_length hcounts)
    subst hc0
    simp [multiCartesianProduct] at hcand

/-- Soundness of a successful backtracking match: the consumed span is a
consuming derivation of the reference relation. -/
theorem descent_sound {r : RulesMap} {m : List Char} :
    ∀ fuel pos rid alt pos2,
      isMessageValidUsingRecursiveDescent fuel m r pos rid alt = some (true, pos2) →
      pos < m.length ∧ CSuffix r rid (m.drop pos) (m.drop pos2) := by
  intro fuel
  induction fuel with
  | zero => intro pos rid alt pos2 h; cases h
  | succ fuel ih =>
    intro pos rid alt pos2 h
    rw [isMessageValidUsingRecursiveDescent] at h
    cases hl : lookupRule r rid with
    | none =>
      rw [descentStep_lookup_none hl] at h
      cases h
    | some rule =>
      cases rule with
      | char c =>
        rw [descentStep_char hl] at h
        by_cases hp : m.length ≤ pos
        · rw [if_pos hp] at h
          simp at h
        · rw [if_neg hp] at h
          have hlt : pos < m.length := Nat.lt_of_not_le hp
          refine ⟨hlt, ?_⟩
          split at h
          · cases h
          · next tc hget =>
            by_cases he : tc = c
            · rw [if_pos he] at h
              obtain rfl : pos + 1 = pos2 := by simpa using h
              rw [drop_eq_cons_of_get? hget, he]
              exact CSuffix.char rid c (m.drop (pos + 1)) hl
            · rw [if_neg he] at h
              simp at h
      | alts alternatives =>
        rw [descentStep_alts hl] at h
        by_cases hp : m.length ≤ pos
        · rw [if_pos hp] at h
          simp at h
        · rw [if_neg hp] at h
          have hlt : pos < m.length := Nat.lt_of_not_le hp
          refine ⟨hlt, ?_⟩
          split at h
          · cases h
          · next seq hget =>
            obtain ⟨hsne, hfold⟩ := checkIfMatchesSequenceAux_sound _
              (fun pos3 rid3 alt3 pos4 h3 => ih pos3 rid3 alt3 pos4 h3) h
            refine CSuffix.alts rid alternatives seq _ _ hl (List.get?_mem hget) hsne ?_ hfold
            intro hnil
            have hlen := congrArg List.length hnil
            rw [List.length_drop] at hlen
            simp at hlen
            omega

/-- C1 counterexample: on the non-recursive grammar
`0: 5 2; 5: 1; 1: 2 | 2 2; 2: "a"` and the message `"aaa"`, the Backtracking
Recognizer answers `false` (rule `5` commits to the one-character match of
rule `1` before the enclosing sequence needs the two-character one) while the
Suffix-Set Recognizer answers `true`, so the two recognizers disagree on a
non-recursive grammar. -/
theorem c1_counterexample :
    NonRecursive c1CounterGrammar ∧
    isMessageValidUsingRecursiveDescentWrapper 30 c1CounterGrammar ("aaa".toList) =
      some false ∧
    isMessageValidUsingListOfSuffixesWrapper 30 c1CounterGrammar ("aaa".toList) =
      some true := by
  refine ⟨?_, by decide, by decide⟩
  intro i hi
  have hstep : ∀ a b, RefersTo c1CounterGrammar a b → c1Rank b < c1Rank a := by
    rintro a b ⟨rule, hl, hb⟩
    have hmem := lookupRule_mem hl
    simp only [c1CounterGrammar, List.mem_cons, List.not_mem_nil, or_false,
      Prod.mk.injEq] at hmem
    rcases hmem with ⟨rfl, rfl⟩ | ⟨rfl, rfl⟩ | ⟨rfl, rfl⟩ | ⟨rfl, rfl⟩ <;>
      simp [ruleRefs] at hb <;>
      rcases hb with rfl | rfl <;> decide
  exact absurd (transGen_rank_lt hstep hi) (lt_irrefl _)

/-- C1 amended: a `true` verdict of the Backtracking Recognizer implies a
`true` verdict of the Suffix-Set Recognizer (whenever the latter returns a
verdict), for every grammar and message; agreement in the other direction
fails even on non-recursive grammars, as the counterexample shows. -/
theorem c1_backtrack_implies_suffix_set (r : RulesMap) (m : List Char) (f f2 : Nat)
    (b : Bool) (hd : isMessageValidUsingRecursiveDescentWrapper f r m = some true)
    (hs : isMessageValidUsingListOfSuffixesWrapper f2 r m = some b) : b = true := by
  unfold isMessageValidUsingRecursiveDescentWrapper at hd
  split at hd
  · cases hd
  · next isM idx heq =>
    cases isM with
    | false => simp at hd
    | true =>
      have hidx : idx = m.length := by simpa using hd
      subst hidx
      obtain ⟨_, hcs⟩ := descent_sound f 0 0 0 m.length heq
      rw [List.drop_zero, List.drop_length] at hcs
      unfold isMessageValidUsingListOfSuffixesWrapper at hs
      split at hs
      · cases hs
      · next l hl =>
        cases hs
        exact List.any_eq_true.mpr ⟨[], cSuffix_mem hcs f2 l hl, rfl⟩

/-- C1 witness: the amended implication at the grammar `0: 1 2; 1: "a";
2: "b"` and the message `"ab"`, accepted by both recognizers. -/
theorem c1_witness : (true : Bool) = true :=
  c1_backtrack_implies_suffix_set abGrammar ['a', 'b'] 10 10 true (by decide) (by decide)

/-! ### C6: termination of the Suffix-Set Recognizer -/

theorem mapOption_isSome {f : α → Option β} {l : List α} (h : ∀ a ∈ l, (f a).isSome) :
    (mapOption f l).isSome := by
  induction l with
  | nil => rfl
  | cons a t ih =>
    unfold mapOption
    obtain ⟨b, hb⟩ := Option.isSome_iff_exists.mp (h a (List.mem_cons_self _ _))
    rw [hb]
    obtain ⟨bs, hbs⟩ := Option.isSome_iff_exists.mp
      (ih (fun x hx => h x (List.mem_cons_of_mem _ hx)))
    rw [hbs]
    rfl

theorem setOfMatchedAux_isSome {r : RulesMap}
    {recog : List Char → RulesMap → Nat → Option (List (List Char))}
    {msgs : List (List Char)} {rid : Nat} (h : ∀ x ∈ msgs, (recog x r rid).isSome) :
    (setOfMatchedAux recog msgs r rid).isSome := by
  unfold setOfMatchedAux
  obtain ⟨ls, hls⟩ := Option.isSome_iff_exists.mp
    (mapOption_isSome (f := fun msg => recog msg r rid) h)
  rw [hls]
  rfl

theorem measure_lt_of_shorter {xlen mlen R rk rk2 : Nat} (hx : xlen < mlen)
    (hrk2 : rk2 ≤ R) : xlen * (R + 1) + rk2 < mlen * (R + 1) + rk := by
  have h1 : (xlen + 1) * (R + 1) = xlen * (R + 1) + (R + 1) := by ring
  have h2 : (xlen + 1) * (R + 1) ≤ mlen * (R + 1) := Nat.mul_le_mul_right _ hx
  omega

/-- Folding the remaining rule ids of a sequence terminates when every message
in flight is strictly shorter than the ambient bound and the recursive call
terminates below that bound. -/
theorem foldOption_suffixes_isSome {r : RulesMap} (hne : HasNonEmptySeqs r) (f : Nat)
    (mlen : Nat)
    (hcall : ∀ (x : List Char) (rid2 : Nat), x.length < mlen → (lookupRule r rid2).isSome →
      (isMessageValidUsingListOfSuffixes f x r rid2).isSome) :
    ∀ (rest : List Nat) (msgs : List (List Char)),
      (∀ x ∈ msgs, x.length < mlen) →
      (∀ j2 ∈ rest, (lookupRule r j2).isSome) →
      (foldOption (fun ms j => setOfMatchedAux (isMessageValidUsingListOfSuffixes f) ms r j)
          msgs rest).isSome := by
  intro rest
  induction rest with
  | nil =>
    intro msgs _ _
    rfl
  | cons j2 rest2 ih =>
    intro msgs hmsgs hdefs
    have hstep : (setOfMatchedAux (isMessageValidUsingListOfSuffixes f) msgs r j2).isSome :=
      setOfMatchedAux_isSome
        (fun x hx => hcall x j2 (hmsgs x hx) (hdefs j2 (List.mem_cons_self _ _)))
    obtain ⟨mid, hmid⟩ := Option.isSome_iff_exists.mp hstep
    unfold foldOption
    rw [hmid]
    refine ih mid ?_ (fun j3 h3 => hdefs j3 (List.mem_cons_of_mem _ h3))
    intro x hx
    unfold setOfMatchedAux at hmid
    split at hmid
    · cases hmid
    · next ls hls =>
      cases hmid
      obtain ⟨lx, hlxls, hxlx⟩ := List.mem_flatten.mp hx
      obtain ⟨y, hymem, hylx⟩ := mapOption_mem_src hls hlxls
      exact lt_trans (suffixes_proper hne f y j2 lx hylx x hxlx).2 (hmsgs y hymem)

/-- Core termination bound: on a grammar with non-empty sequences, all
references defined, and a rank bounded by `R` that strictly decreases from a
rule to the head of each of its alternatives, the Suffix-Set Recognizer
returns a result whenever the fuel exceeds `|m|·(R+1) + rank rid`. -/
theorem suffixes_terminates_aux {r : RulesMap} {rank : Nat → Nat} {R : Nat}
    (hne : HasNonEmptySeqs r) (hdef : AllRefsDefined r)
    (hrank : ∀ i alternatives, lookupRule r i = some (Rule.alts alternatives) →
      ∀ seq ∈ alternatives, ∀ j rest2, seq = j :: rest2 → rank j < rank i)
    (hR : ∀ i, rank i ≤ R) :
    ∀ N m rid fuel, m.length * (R + 1) + rank rid < N →
      m.length * (R + 1) + rank rid < fuel → (lookupRule r rid).isSome →
      (isMessageValidUsingListOfSuffixes fuel m r rid).isSome := by
  intro N
  induction N with
  | zero =>
    intro m rid fuel hN
    exact absurd hN (Nat.not_lt_zero _)
  | succ N ihN =>
    intro m rid fuel hN hfuel hrid
    cases fuel with
    | zero => exact absurd hfuel (Nat.not_lt_zero _)
    | succ f =>
      obtain ⟨rule, hl⟩ := Option.isSome_iff_exists.mp hrid
      by_cases hm : m.isEmpty
      · rw [isMessageValidUsingListOfSuffixes]
        unfold suffixesStep
        rw [if_pos hm]
        rfl
      · cases rule with
        | char c =>
          rw [isMessageValidUsingListOfSuffixes, suffixesStep_char hl, if_neg hm]
          by_cases hh : m.head? = some c
          · rw [if_pos hh]; rfl
          · rw [if_neg hh]; rfl
        | alts alternatives =>
          rw [isMessageValidUsingListOfSuffixes, suffixesStep_alts hl, if_neg hm]
          have hmeas_le : m.length * (R + 1) + rank rid ≤ f := Nat.lt_succ_iff.mp hfuel
          have hmeas_N : m.length * (R + 1) + rank rid ≤ N := Nat.lt_succ_iff.mp hN
          have hcall : ∀ (x : List Char) (rid2 : Nat), x.length < m.length →
              (lookupRule r rid2).isSome →
              (isMessageValidUsingListOfSuffixes f x r rid2).isSome := by
            intro x rid2 hx hdef2
            have hmx : x.length * (R + 1) + rank rid2 <
                m.length * (R + 1) + rank rid := measure_lt_of_shorter hx (hR rid2)
            exact ihN x rid2 f (by omega) (by omega) hdef2
          have hmap : (mapOption
              (fun seq =>
                foldOption
                  (fun msgs j =>
                    setOfMatchedAux (isMessageValidUsingListOfSuffixes f) msgs r j)
                  [m] seq)
              alternatives).isSome := by
            apply mapOption_isSome
            intro seq hseq
            have hseqne : seq ≠ [] :=
              hne _ (lookupRule_mem hl) seq (by simpa [ruleSeqs] using hseq)
            cases seq with
            | nil => exact absurd rfl hseqne
            | cons j rest =>
              have hjref : j ∈ ruleRefs (Rule.alts alternatives) := by
                simp only [ruleRefs]
                exact List.mem_flatten.mpr ⟨j :: rest, hseq, List.mem_cons_self _ _⟩
              have hjdef : (lookupRule r j).isSome := hdef _ (lookupRule_mem hl) j hjref
              have hrankj : rank j < rank rid := hrank rid alternatives hl _ hseq j rest rfl
              have hcallj : (isMessageValidUsingListOfSuffixes f m r j).isSome :=
                ihN m j f (by omega) (by omega) hjdef
              obtain ⟨lj, hlj⟩ := Option.isSome_iff_exists.mp hcallj
              have hmo : mapOption (fun msg => isMessageValidUsingListOfSuffixes f msg r j)
                  [m] = some [lj] := by
                simp [mapOption, hlj]
              have hg : setOfMatchedAux (isMessageValidUsingListOfSuffixes f) [m] r j =
                  some [lj].flatten := by
                unfold setOfMatchedAux
                rw [hmo]
              unfold foldOption
              rw [hg]
              refine foldOption_suffixes_isSome hne f m.length hcall rest [lj].flatten ?_ ?_
              · intro x hx
                have hxlj : x ∈ lj := by simpa using hx
                exact (suffixes_proper hne f m j lj hlj x hxlj).2
              · intro j2 hj2
                refine hdef _ (lookupRule_mem hl) j2 ?_
                simp only [ruleRefs]
                exact List.mem_flatten.mpr ⟨j :: rest, hseq, List.mem_cons_of_mem _ hj2⟩
          obtain ⟨ls, hls⟩ := Option.isSome_iff_exists.mp hmap
          rw [hls]
          rfl

/-- C6 counterexample: the left-recursive grammar `0: 0` has non-empty
alternative sequences and all referenced ids defined, yet the Suffix-Set
Recognizer never returns on the message `"a"` — each recursive call repeats
the same arguments (the source's own comment restricts the approach to
non-left-recursive rules). -/
theorem c6_counterexample :
    HasNonEmptySeqs leftRecGrammar ∧ AllRefsDefined leftRecGrammar ∧
    ¬ ∃ fuel l, isMessageValidUsingListOfSuffixes fuel ['a'] leftRecGrammar 0 = some l := by
  refine ⟨by decide, by decide, ?_⟩
  rintro ⟨fuel, l, h⟩
  have key : ∀ f, isMessageValidUsingListOfSuffixes f ['a'] leftRecGrammar 0 = none := by
    intro f
    induction f with
    | zero => rfl
    | succ f ihf =>
      rw [isMessageValidUsingListOfSuffixes,
        suffixesStep_alts (show lookupRule leftRecGrammar 0 = some (Rule.alts [[0]]) from rfl)]
      simp [mapOption, foldOption, setOfMatchedAux, ihf]
  rw [key fuel] at h
  cases h

/-- C6 amended: the Suffix-Set Recognizer terminates on every finite message
provided the grammar additionally is non-left-recursive, witnessed by a rank
on rule ids, bounded by `R`, that strictly decreases from each rule to the
first rule id of each of its alternative sequences; fuel
`|m|·(R+1) + R + 1` — one unit per recursive call, in total bounded by the
message length times the rank bound — always suffices. -/
theorem c6_termination (r : RulesMap) (rank : Nat → Nat) (R : Nat)
    (hne : HasNonEmptySeqs r) (hdef : AllRefsDefined r)
    (hrank : ∀ i alternatives, lookupRule r i = some (Rule.alts alternatives) →
      ∀ seq ∈ alternatives, ∀ j rest2, seq = j :: rest2 → rank j < rank i)
    (hR : ∀ i, rank i ≤ R) (m : List Char) (rid : Nat)
    (hrid : (lookupRule r rid).isSome) :
    ∃ l, isMessageValidUsingListOfSuffixes (m.length * (R + 1) + R + 1) m r rid = some l := by
  have hrk := hR rid
  exact Option.isSome_iff_exists.mp
    (suffixes_terminates_aux hne hdef hrank hR (m.length * (R + 1) + R + 1) m rid
      (m.length * (R + 1) + R + 1) (by omega) (by omega) hrid)

/-- C6 witness: termination at the grammar `0: 1 2; 1: "a"; 2: "b"`, rank
`0 ↦ 1, _ ↦ 0`, bound `R = 1`, message `"ab"`. -/
theorem c6_witness :
    ∃ l, isMessageValidUsingListOfSuffixes
      ((['a', 'b'] : List Char).length * (1 + 1) + 1 + 1) ['a', 'b'] abGrammar 0 = some l := by
  refine c6_termination abGrammar (fun i => if i = 0 then 1 else 0) 1 (by decide) (by decide)
    ?_ ?_ ['a', 'b'] 0 (by decide)
  · intro i alternatives hl seq hseq j rest2 hcons
    have hmem := lookupRule_mem hl
    simp only [abGrammar, List.mem_cons, List.not_mem_nil, or_false, Prod.mk.injEq] at hmem
    rcases hmem with ⟨rfl, halt⟩ | ⟨rfl, halt⟩ | ⟨rfl, halt⟩
    · obtain rfl : alternatives = [[1, 2]] := by
        injection halt
      obtain rfl : seq = [1, 2] := by simpa using hseq
      obtain rfl : j = 1 := by
        have := congrArg List.head? hcons
        simpa using this.symm
      decide
    · cases halt
    · cases halt
  · intro i
    by_cases h : i = 0 <;> simp [h]

end D19
